import Mathlib

/-!
Verification development for the FinoktAIOCR correction-resolution and
auto-learning engine.

The definitions below are a shallow embedding of the Python sources:

* `src/ocr/lexicon_processor.py` — `LexiconProcessor` (`_find_correction`,
  `_preserve_case`, `_normalize_for_comparison`, `_load_lexicon`,
  `apply_lexicon_corrections`);
* `src/main.py` — the `save_correction` endpoint and the
  `update_lexicon_async` helper;
* `src/corrections/integration.py` — `CorrectionIntegrator`
  (`_load_corrections`, `_apply_corrections_to_ocr`).

Modelling conventions:

* Python `str` is modelled by `String` over the ASCII fragment: the case
  predicates and case-mapping functions (`str.isupper`, `str.lower`, …)
  are given their Python semantics restricted to ASCII letters, and
  Python whitespace is the ASCII whitespace class `[ \t\n\x0b\x0c\r]`.
* Python `dict` objects (JSON objects) are modelled as insertion-ordered
  association lists with unique keys; `dict.get`/`in` is first-match
  lookup, item assignment replaces an existing key in place and appends
  a fresh key at the end, and `dict.update` folds item assignment.
* File-system persistence (JSON files under `data/`) is modelled as
  explicit state records threaded through the functions; the mtime-based
  caching of `_load_lexicon` only affects when files are re-read, not the
  combination semantics, so the model keeps the combination step.
* Wall-clock timestamps (`datetime.utcnow()`) are threaded as a `Nat`
  parameter `now`.
-/

set_option autoImplicit false

namespace FinoktAI

/-! ### Python string primitives (ASCII model) -/

/-- Python whitespace test for a single character (the `\s` class of
`re` and the default strip set of `str.strip`), restricted to ASCII:
space and the control characters 9–13. -/
def py_is_space (c : Char) : Bool :=
  decide (c.toNat = 32 ∨ (9 ≤ c.toNat ∧ c.toNat ≤ 13))

/-- Python `ch.isupper()` for a single character, ASCII model. -/
def py_is_upper_char (c : Char) : Bool :=
  decide (65 ≤ c.toNat ∧ c.toNat ≤ 90)

/-- Python `ch.islower()` for a single character, ASCII model. -/
def py_is_lower_char (c : Char) : Bool :=
  decide (97 ≤ c.toNat ∧ c.toNat ≤ 122)

/-- A character is cased (participates in `str.isupper`/`str.islower`)
iff it is an ASCII letter in this model. -/
def py_is_cased_char (c : Char) : Bool :=
  py_is_upper_char c || py_is_lower_char c

/-- Python `ch.lower()` for a single character, ASCII model. -/
def py_to_lower_char (c : Char) : Char :=
  if py_is_upper_char c then Char.ofNat (c.toNat + 32) else c

/-- Python `ch.upper()` for a single character, ASCII model. -/
def py_to_upper_char (c : Char) : Char :=
  if py_is_lower_char c then Char.ofNat (c.toNat - 32) else c

/-- Python `s.strip()`: drop leading and trailing whitespace. -/
def py_strip (s : String) : String :=
  ⟨List.rdropWhile py_is_space (s.data.dropWhile py_is_space)⟩

/-- Python `s.lower()`. -/
def py_lower (s : String) : String :=
  ⟨s.data.map py_to_lower_char⟩

/-- Python `s.upper()`. -/
def py_upper (s : String) : String :=
  ⟨s.data.map py_to_upper_char⟩

/-- Python `s.isupper()`: at least one cased character and every cased
character is uppercase. -/
def py_is_upper (s : String) : Bool :=
  s.data.any py_is_cased_char &&
    s.data.all (fun c => !py_is_cased_char c || py_is_upper_char c)

/-- Python `s.islower()`: at least one cased character and every cased
character is lowercase. -/
def py_is_lower (s : String) : Bool :=
  s.data.any py_is_cased_char &&
    s.data.all (fun c => !py_is_cased_char c || py_is_lower_char c)

/-- Collapse every run of whitespace to a single space; the `prev_ws`
flag records whether the previous emitted character came from a
whitespace run.  Models `re.sub(r"\s+", " ", text)`. -/
def collapse_ws : List Char → Bool → List Char
  | [], _ => []
  | c :: rest, prev_ws =>
    if py_is_space c then
      if prev_ws then collapse_ws rest true
      else ' ' :: collapse_ws rest true
    else c :: collapse_ws rest false

/-! ### Python dict model -/

/-- First-match lookup in an insertion-ordered association list;
models `d.get(k)` / `d[k]` on a Python dict (keys are strings for JSON
objects, object identities for the heap model below). -/
def dict_get? {kk α : Type} [DecidableEq kk] : List (kk × α) → kk → Option α
  | [], _ => none
  | (k1, v) :: rest, k => if k1 = k then some v else dict_get? rest k

/-- Models `k in d` on a Python dict. -/
def dict_contains {kk α : Type} [DecidableEq kk] (d : List (kk × α)) (k : kk) : Bool :=
  (dict_get? d k).isSome

/-- Models `d[k] = v` on a Python dict: replace the value of an existing
key in place, otherwise append the new pair at the end. -/
def dict_set {kk α : Type} [DecidableEq kk] : List (kk × α) → kk → α → List (kk × α)
  | [], k, v => [(k, v)]
  | (k1, v1) :: rest, k, v =>
    if k1 = k then (k1, v) :: rest else (k1, v1) :: dict_set rest k v

/-- Models `d1.update(d2)` on Python dicts (returning the new value of
`d1`). -/
def dict_update {kk α : Type} [DecidableEq kk] (d1 d2 : List (kk × α)) : List (kk × α) :=
  d2.foldl (fun d kv => dict_set d kv.1 kv.2) d1

/-! ### LexiconProcessor (src/ocr/lexicon_processor.py) -/

/-- A lexicon: the JSON object mapping original to corrected text. -/
abbrev Lexicon := List (String × String)

/-- Embedding of `LexiconProcessor._normalize_for_comparison`:
`re.sub(r"\s+", " ", text.strip())`.  After the strip there is no
leading run, so collapsing with `prev_ws = false` is exact. -/
def normalize_for_comparison (text : String) : String :=
  ⟨collapse_ws (py_strip text).data false⟩

/-- The title-case test of `_preserve_case`:
`original[0].isupper() and len(original) > 1 and original[1:].islower()`. -/
def py_title_pattern (s : String) : Bool :=
  match s.data with
  | [] => false
  | c :: rest => py_is_upper_char c && !rest.isEmpty && py_is_lower ⟨rest⟩

/-- The title-case rewrite of `_preserve_case`:
`corrected[0].upper() + corrected[1:].lower()`. -/
def py_upper_first_lower_rest (s : String) : String :=
  match s.data with
  | [] => ""
  | c :: rest => ⟨py_to_upper_char c :: rest.map py_to_lower_char⟩

/-- Embedding of `LexiconProcessor._preserve_case`. -/
def preserve_case (original corrected : String) : String :=
  if original = "" ∨ corrected = "" then corrected
  else if py_is_upper original then py_upper corrected
  else if py_title_pattern original then
    (if 1 < corrected.length then py_upper_first_lower_rest corrected
     else py_upper corrected)
  else if py_is_lower original then py_lower corrected
  else corrected

/-- Embedding of `LexiconProcessor._find_correction`: exact match, then
case-insensitive match (with case re-derivation), then
whitespace-normalized match; on a miss the input is returned
unchanged. -/
def find_correction (original_text : String) (lexicon : Lexicon) : String :=
  let normalized_input := py_strip original_text
  match dict_get? lexicon normalized_input with
  | some corrected => corrected
  | none =>
    match lexicon.find? (fun kv => py_lower kv.1 == py_lower normalized_input) with
    | some kv => preserve_case normalized_input kv.2
    | none =>
      let normalized_input_clean := normalize_for_comparison normalized_input
      match lexicon.find?
          (fun kv => normalize_for_comparison kv.1 == normalized_input_clean) with
      | some kv => kv.2
      | none => original_text

/-- Embedding of the combination step of `LexiconProcessor._load_lexicon`:
`combined = {}`, `combined.update(global_lexicon)`,
`combined.update(type_lexicon)` — the document-type lexicon is applied
last, so its entries win on key collision. -/
def load_lexicon (global_lexicon type_lexicon : Lexicon) : Lexicon :=
  dict_update (dict_update [] global_lexicon) type_lexicon

/-! ### OCR word-stream data model (DocTR JSON shape) -/

/-- A bounding box: the JSON number list stored in `corrected_bbox` /
`geometry`; JSON numbers are modelled as rationals. -/
abbrev BBox := List Rat

/-- A word dict of the DocTR OCR output, with every key that the
correction code reads or writes.  Keys a fresh OCR word does not carry
(`original_value`, `auto_corrected`, …) default to their absent value. -/
structure Word where
  value : String
  geometry : List BBox := []
  original_value : Option String := none
  auto_corrected : Bool := false
  corrected_by_lexicon : Bool := false
  correction_source : Option String := none
  auto_corrected_at : Option Nat := none
  corrected : Bool := false
  corrected_by : Option String := none
  corrected_at : Option Nat := none
deriving DecidableEq, Inhabited

/-- A line dict: `{"words": [...]}`. -/
structure Line where
  words : List Word
deriving DecidableEq, Inhabited

/-- A block dict: `{"lines": [...]}`. -/
structure Block where
  lines : List Line
deriving DecidableEq, Inhabited

/-- A page dict: `{"blocks": [...]}`. -/
structure Page where
  blocks : List Block
deriving DecidableEq, Inhabited

/-- The OCR data dict: `{"pages": [...]}`. -/
structure OcrData where
  pages : List Page
deriving DecidableEq, Inhabited

/-- All words of an OCR document in traversal order. -/
def words_of (d : OcrData) : List Word :=
  d.pages.flatMap fun p => p.blocks.flatMap fun b => b.lines.flatMap fun l => l.words

/-- Embedding of the per-word body of the loop in
`LexiconProcessor.apply_lexicon_corrections`: strip the value, skip it
when empty, look up a correction, and when one is found and differs,
rewrite the word and record a description of the applied correction.
(The Python description string wraps both values in quote marks; the
model joins them with a plain arrow, which is injective in the same
way.) -/
def correct_word (lexicon : Lexicon) (now : Nat) (word : Word) : Word × List String :=
  let original_value := py_strip word.value
  if original_value = "" then (word, [])
  else
    let corrected_value := find_correction original_value lexicon
    if corrected_value ≠ "" ∧ corrected_value ≠ original_value then
      ({ word with
          value := corrected_value,
          original_value := some original_value,
          auto_corrected := true,
          corrected_by_lexicon := true,
          correction_source := some "lexicon",
          auto_corrected_at := some now },
        [original_value ++ " -> " ++ corrected_value])
    else (word, [])

/-- The loop of `apply_lexicon_corrections` over one line. -/
def correct_line (lexicon : Lexicon) (now : Nat) (line : Line) : Line × List String :=
  let results := line.words.map (correct_word lexicon now)
  (⟨results.map Prod.fst⟩, (results.map Prod.snd).flatten)

/-- The loop of `apply_lexicon_corrections` over one block. -/
def correct_block (lexicon : Lexicon) (now : Nat) (block : Block) : Block × List String :=
  let results := block.lines.map (correct_line lexicon now)
  (⟨results.map Prod.fst⟩, (results.map Prod.snd).flatten)

/-- The loop of `apply_lexicon_corrections` over one page. -/
def correct_page (lexicon : Lexicon) (now : Nat) (page : Page) : Page × List String :=
  let results := page.blocks.map (correct_block lexicon now)
  (⟨results.map Prod.fst⟩, (results.map Prod.snd).flatten)

/-- Embedding of `LexiconProcessor.apply_lexicon_corrections`: when
auto-correction is disabled or the loaded lexicon is empty the input is
returned with no applied corrections; otherwise every word of a deep
copy is processed and the applied-correction descriptions are collected
in traversal order. -/
def apply_lexicon_corrections (auto_correction_enabled : Bool) (lexicon : Lexicon)
    (now : Nat) (ocr_data : OcrData) : OcrData × List String :=
  if !auto_correction_enabled then (ocr_data, [])
  else if lexicon.isEmpty then (ocr_data, [])
  else
    let results := ocr_data.pages.map (correct_page lexicon now)
    (⟨results.map Prod.fst⟩, (results.map Prod.snd).flatten)

/-! ### The save_correction endpoint (src/main.py) -/

/-- One entry of a per-document corrections log file
(`data/logs/corrections/{doc_id}.json`), as written by
`save_correction`. -/
structure LogEntry where
  document_id : String
  page : Int
  word_id : String
  original_text : String
  corrected_text : String
  corrected_bbox : BBox
  user_id : String
  timestamp : Nat
deriving DecidableEq

/-- The persisted state that `save_correction` reads and writes:
the per-document corrections logs, the frequency table
(`data/lexicons/correction_frequency.json`, keyed by the string
`f"{original} -> {corrected}"` exactly as in the source) and the global
lexicon (`data/lexicons/auto_corrections.json`). -/
structure ServerState where
  corrections_log : List (String × List LogEntry)
  correction_frequency : List (String × Nat)
  auto_corrections : Lexicon
deriving DecidableEq

/-- The request parameters of the `save_correction` endpoint.
`corrected_bbox = none` models a `corrected_bbox` form string that
`json.loads` rejects. -/
structure SaveParams where
  doc_id : String
  page : Int
  word_id : String
  original_text : String
  corrected_text : String
  true_original_text : String := ""
  corrected_bbox : Option BBox
  user_id : String := "analyst1"

/-- The possible responses of `save_correction`, one constructor per
return site of the source (the persistence-failure return sites are
unreachable in this model, which assumes the store is writable). -/
inductive SaveResponse where
  | missing_params
  | no_change
  | invalid_bbox
  | saved (lexicon_updated : Bool) (correction_frequency : Nat) (lexicon_size : Nat)
deriving DecidableEq

/-- The abstract `accepted` flag of the spec interface
`submit_correction -> {accepted: bool}`: a submission is accepted iff a
correction record was persisted, i.e. iff the endpoint reached its
success return. -/
def SaveResponse.accepted : SaveResponse → Bool
  | .saved _ _ _ => true
  | _ => false

/-- The text `save_correction` uses as lexicon key:
`true_original_text if true_original_text else original_text`. -/
def text_for_lexicon (p : SaveParams) : String :=
  if p.true_original_text ≠ "" then p.true_original_text else p.original_text

/-- Embedding of the `save_correction` endpoint of `src/main.py`:
validate, reject unchanged text, parse the bbox, append the log entry,
increment the frequency counter, and always upsert the lexicon entry
for the (true-original, corrected) pair — the learning threshold is
never consulted on this path. -/
def save_correction (p : SaveParams) (now : Nat) (st : ServerState) :
    ServerState × SaveResponse :=
  if p.doc_id = "" ∨ p.word_id = "" ∨ p.original_text = "" ∨ p.corrected_text = "" then
    (st, .missing_params)
  else if p.original_text = p.corrected_text then
    (st, .no_change)
  else
    match p.corrected_bbox with
    | none => (st, .invalid_bbox)
    | some bbox =>
      let entry : LogEntry :=
        ⟨p.doc_id, p.page, p.word_id, p.original_text, p.corrected_text, bbox,
          p.user_id, now⟩
      let existing := (dict_get? st.corrections_log p.doc_id).getD []
      let log1 := dict_set st.corrections_log p.doc_id (existing ++ [entry])
      let correction_key := p.original_text ++ " -> " ++ p.corrected_text
      let current_frequency := (dict_get? st.correction_frequency correction_key).getD 0 + 1
      let freq1 := dict_set st.correction_frequency correction_key current_frequency
      let key := text_for_lexicon p
      let (lexicon1, lexicon_updated) :=
        match dict_get? st.auto_corrections key with
        | some old_correction =>
          if old_correction ≠ p.corrected_text then
            (dict_set st.auto_corrections key p.corrected_text, true)
          else (st.auto_corrections, false)
        | none => (dict_set st.auto_corrections key p.corrected_text, true)
      (⟨log1, freq1, lexicon1⟩,
        .saved lexicon_updated current_frequency lexicon1.length)

/-! ### The update_lexicon_async helper (src/main.py) -/

/-- The state read and written by `update_lexicon_async`: the frequency
table and the global lexicon. -/
structure LexiconStore where
  correction_frequency : List (String × Nat)
  auto_corrections : Lexicon
deriving DecidableEq

/-- The result dict of `update_lexicon_async`. -/
structure UpdateResult where
  updated : Bool
  frequency : Nat
  lexicon_size : Nat
deriving DecidableEq

/-- Embedding of `update_lexicon_async` of `src/main.py`: increment the
frequency counter for the pair and, only when the updated frequency has
reached the configured learning threshold, upsert the lexicon entry
(insert if absent, overwrite if present with a different correction,
no-op if identical). -/
def update_lexicon_async (original_text corrected_text : String)
    (learning_threshold : Nat) (st : LexiconStore) : LexiconStore × UpdateResult :=
  let correction_key := original_text ++ " -> " ++ corrected_text
  let current_frequency := (dict_get? st.correction_frequency correction_key).getD 0 + 1
  let freq1 := dict_set st.correction_frequency correction_key current_frequency
  let (lexicon1, updated) :=
    if learning_threshold ≤ current_frequency then
      match dict_get? st.auto_corrections original_text with
      | none => (dict_set st.auto_corrections original_text corrected_text, true)
      | some old_correction =>
        if old_correction ≠ corrected_text then
          (dict_set st.auto_corrections original_text corrected_text, true)
        else (st.auto_corrections, false)
    else (st.auto_corrections, false)
  (⟨freq1, lexicon1⟩, ⟨updated, current_frequency, lexicon1.length⟩)

/-! ### CorrectionIntegrator (src/corrections/integration.py) -/

/-- A correction record as loaded by `CorrectionIntegrator._load_corrections`
and consumed by `_apply_corrections_to_ocr`. -/
structure Correction where
  document_id : String
  page : Int
  word_id : String
  original_text : String
  corrected_text : String
  corrected_bbox : BBox
  user_id : String
  timestamp : Nat
  correction_type : String := "text_edit"
deriving DecidableEq

/-- The `timestamp` entry of a stored record, as
`datetime.fromisoformat(correction_data["timestamp"])` sees it: the key
may be absent (`KeyError`, caught and skipped), hold a non-string JSON
value (`TypeError`, which the inner handler does not catch), hold a
string `fromisoformat` rejects (`ValueError`, caught and skipped), or
hold a parseable ISO string. -/
inductive TimestampField where
  | missing
  | non_string
  | unparseable
  | iso (ts : Nat)
deriving DecidableEq

/-- A parsed JSON object from one line of the corrections log; each key
the loader accesses is optional, because a stored record may lack it. -/
structure RawRecord where
  document_id : Option String := none
  page : Option Int := none
  word_id : Option String := none
  corrected_text : Option String := none
  corrected_bbox : Option BBox := none
  user_id : Option String := none
  timestamp : TimestampField := .missing
  correction_type : Option String := none
deriving DecidableEq

/-- One line of the corrections log file: blank after strip, not valid
JSON (`json.JSONDecodeError`, caught and skipped), valid JSON that is
not an object (a number, string, array, boolean or null — on such a
line `correction_data.get` raises `AttributeError`, which the inner
handler does not catch), or a parsed object record. -/
inductive LogLine where
  | blank
  | invalid
  | nonobject
  | record (r : RawRecord)
deriving DecidableEq

/-- The outcome of the `Correction(...)` construction inside
`_load_corrections`: a built record; a skip, when the inner
`except (JSONDecodeError, KeyError, ValueError)` catches the failure
(a missing key, or a timestamp string `fromisoformat` rejects); or an
abort, when a present non-string timestamp raises `TypeError`, which
escapes the inner handler. -/
inductive BuildResult where
  | built (c : Correction)
  | skip
  | abort
deriving DecidableEq

/-- The `Correction(...)` construction of `_load_corrections`, with
Python evaluation order: any missing required key raises `KeyError`
(skip) before `fromisoformat` runs; with every key present the
timestamp decides — `original_text` is set to the empty string and
`correction_type` defaults to `"text_edit"`, exactly as in the
source. -/
def build_correction (r : RawRecord) : BuildResult :=
  match r.document_id, r.page, r.word_id, r.corrected_text, r.corrected_bbox,
      r.user_id with
  | some d, some pg, some w, some c, some b, some u =>
    match r.timestamp with
    | .missing => .skip
    | .unparseable => .skip
    | .non_string => .abort
    | .iso ts => .built ⟨d, pg, w, "", c, b, u, ts, r.correction_type.getD "text_edit"⟩
  | _, _, _, _, _, _ => .skip

/-- Embedding of `CorrectionIntegrator._load_corrections`: walk the log
lines, skip blank and unparseable lines, keep only records whose
`document_id` equals the requested document, and skip any record whose
construction raises an error the inner handler catches.  A valid-JSON
non-object line, or a matching record whose construction raises
`TypeError`, escapes to the outer `except Exception`, which stops the
loop and returns only the corrections collected so far. -/
def load_corrections (lines : List LogLine) (doc_id : String) : List Correction :=
  match lines with
  | [] => []
  | .blank :: rest => load_corrections rest doc_id
  | .invalid :: rest => load_corrections rest doc_id
  | .nonobject :: _ => []
  | .record r :: rest =>
    if r.document_id = some doc_id then
      match build_correction r with
      | .built c => c :: load_corrections rest doc_id
      | .skip => load_corrections rest doc_id
      | .abort => []
    else load_corrections rest doc_id

/-- A log line is well-formed when it is a parsed object record whose
construction succeeds. -/
def valid_line : LogLine → Bool
  | .record r =>
    match build_correction r with
    | .built _ => true
    | _ => false
  | _ => false

/-- A log line that makes `_load_corrections` abort for the given
document: a valid-JSON non-object line, or a record for that document
whose construction raises the uncaught `TypeError`. -/
def line_aborts (doc_id : String) : LogLine → Bool
  | .nonobject => true
  | .record r =>
    r.document_id = some doc_id &&
      (match build_correction r with
        | .abort => true
        | _ => false)
  | _ => false

/-- A log none of whose lines aborts the load for the given document. -/
def abort_free (lines : List LogLine) (doc_id : String) : Bool :=
  lines.all fun l => !line_aborts doc_id l

/-- The dict comprehension `{c.word_id: c for c in corrections}` of
`_apply_corrections_to_ocr`: on duplicate `word_id` the later record
wins. -/
def corrections_by_word_id (corrections : List Correction) :
    List (String × Correction) :=
  corrections.foldl (fun d c => dict_set d c.word_id c) []

/-- The per-word body of `_apply_corrections_to_ocr`: the word at global
traversal index `idx` has id `f"w{idx}"` (`_get_word_index` scans for
the identical word object, which sits at its own traversal position);
when a correction is registered for that id the word text is replaced,
review annotations are added, and a non-empty corrected bbox replaces
the geometry. -/
def integrate_word (by_word_id : List (String × Correction)) (idx : Nat)
    (word : Word) : Word :=
  match dict_get? by_word_id ("w" ++ toString idx) with
  | none => word
  | some c =>
    let w1 := { word with
      value := c.corrected_text,
      original_value := some word.value,
      corrected := true,
      corrected_by := some c.user_id,
      corrected_at := some c.timestamp }
    if c.corrected_bbox ≠ [] then { w1 with geometry := [c.corrected_bbox] } else w1

/-- The word loop of `_apply_corrections_to_ocr` over one line,
threading the global word counter. -/
def integrate_words (by_word_id : List (String × Correction)) (idx : Nat) :
    List Word → List Word × Nat
  | [] => ([], idx)
  | w :: rest =>
    let w1 := integrate_word by_word_id idx w
    let (rest1, idx1) := integrate_words by_word_id (idx + 1) rest
    (w1 :: rest1, idx1)

/-- The line loop of `_apply_corrections_to_ocr` over one block. -/
def integrate_lines (by_word_id : List (String × Correction)) (idx : Nat) :
    List Line → List Line × Nat
  | [] => ([], idx)
  | l :: rest =>
    let (ws, idx1) := integrate_words by_word_id idx l.words
    let (rest1, idx2) := integrate_lines by_word_id idx1 rest
    (⟨ws⟩ :: rest1, idx2)

/-- The block loop of `_apply_corrections_to_ocr` over one page. -/
def integrate_blocks (by_word_id : List (String × Correction)) (idx : Nat) :
    List Block → List Block × Nat
  | [] => ([], idx)
  | b :: rest =>
    let (ls, idx1) := integrate_lines by_word_id idx b.lines
    let (rest1, idx2) := integrate_blocks by_word_id idx1 rest
    (⟨ls⟩ :: rest1, idx2)

/-- The page loop of `_apply_corrections_to_ocr`. -/
def integrate_pages (by_word_id : List (String × Correction)) (idx : Nat) :
    List Page → List Page × Nat
  | [] => ([], idx)
  | p :: rest =>
    let (bs, idx1) := integrate_blocks by_word_id idx p.blocks
    let (rest1, idx2) := integrate_pages by_word_id idx1 rest
    (⟨bs⟩ :: rest1, idx2)

/-- Embedding of `CorrectionIntegrator._apply_corrections_to_ocr`:
apply the by-word-id corrections to a deep copy of the OCR structure,
numbering words by global traversal order. -/
def apply_corrections_to_ocr (ocr_data : OcrData)
    (corrections : List Correction) : OcrData :=
  ⟨(integrate_pages (corrections_by_word_id corrections) 0 ocr_data.pages).1⟩

/-! ### Heap model of the deep-copy-then-mutate discipline

Both `apply_lexicon_corrections` and `_apply_corrections_to_ocr` start
with `corrected_data = json.loads(json.dumps(ocr_data))` and then assign
only into word dicts of that copy.  To state that the caller's input
objects are never mutated, word dicts are given explicit identities: a
`WordStore` maps references to word values (the Python heap restricted
to word dicts, the only objects these functions assign into), and the
OCR structure holds references.  `json.loads(json.dumps(...))` allocates
fresh references for every word of the copy; the mutation loops write
only through the copy's references. -/

/-- The heap of word objects: reference to current word value. -/
abbrev WordStore := List (Nat × Word)

/-- Dereference a word object. -/
def store_get? (store : WordStore) (r : Nat) : Option Word :=
  dict_get? store r

/-- Assign a new value to a word object (in-place dict mutation). -/
def store_set (store : WordStore) (r : Nat) (w : Word) : WordStore :=
  dict_set store r w

/-- The largest reference in use; fresh allocation starts above it. -/
def max_ref : WordStore → Nat
  | [] => 0
  | (r, _) :: rest => max r (max_ref rest)

/-- A line holding references to its word objects. -/
structure RLine where
  words : List Nat
deriving DecidableEq

/-- A block of reference-level lines. -/
structure RBlock where
  lines : List RLine
deriving DecidableEq

/-- A page of reference-level blocks. -/
structure RPage where
  blocks : List RBlock
deriving DecidableEq

/-- Reference-level OCR data: the structure the caller passes in. -/
structure ROcrData where
  pages : List RPage
deriving DecidableEq

/-- All word references of a reference-level document, traversal
order. -/
def word_refs (o : ROcrData) : List Nat :=
  o.pages.flatMap fun p => p.blocks.flatMap fun b => b.lines.flatMap fun l => l.words

/-- Copy one list of word objects: each source word is read and stored
again under a fresh reference (`json.loads(json.dumps(...))` at word
granularity).  Returns the grown heap, the copy's references, and the
next fresh reference. -/
def copy_words (store : WordStore) (next : Nat) :
    List Nat → WordStore × List Nat × Nat
  | [] => (store, [], next)
  | r :: rest =>
    let w := (store_get? store r).getD default
    let store1 := (next, w) :: store
    let (store2, rest1, next1) := copy_words store1 (next + 1) rest
    (store2, next :: rest1, next1)

/-- Copy the lines of a block. -/
def copy_lines (store : WordStore) (next : Nat) :
    List RLine → WordStore × List RLine × Nat
  | [] => (store, [], next)
  | l :: rest =>
    let (store1, ws, next1) := copy_words store next l.words
    let (store2, rest1, next2) := copy_lines store1 next1 rest
    (store2, ⟨ws⟩ :: rest1, next2)

/-- Copy the blocks of a page. -/
def copy_blocks (store : WordStore) (next : Nat) :
    List RBlock → WordStore × List RBlock × Nat
  | [] => (store, [], next)
  | b :: rest =>
    let (store1, ls, next1) := copy_lines store next b.lines
    let (store2, rest1, next2) := copy_blocks store1 next1 rest
    (store2, ⟨ls⟩ :: rest1, next2)

/-- Copy the pages of a document. -/
def copy_pages (store : WordStore) (next : Nat) :
    List RPage → WordStore × List RPage × Nat
  | [] => (store, [], next)
  | p :: rest =>
    let (store1, bs, next1) := copy_blocks store next p.blocks
    let (store2, rest1, next2) := copy_pages store1 next1 rest
    (store2, ⟨bs⟩ :: rest1, next2)

/-- `json.loads(json.dumps(ocr_data))`: a deep copy whose word objects
are all freshly allocated above every reference already in the heap. -/
def deep_copy (store : WordStore) (o : ROcrData) : WordStore × ROcrData :=
  let (store1, ps, _) := copy_pages store (max_ref store + 1) o.pages
  (store1, ⟨ps⟩)

/-- The word loop of `apply_lexicon_corrections` at the heap level: each
referenced word object of the copy is read, corrected, and written
back. -/
def ref_correct_words (lexicon : Lexicon) (now : Nat) (store : WordStore) :
    List Nat → WordStore × List String
  | [] => (store, [])
  | r :: rest =>
    let w := (store_get? store r).getD default
    let (w1, applied) := correct_word lexicon now w
    let store1 := store_set store r w1
    let (store2, applied1) := ref_correct_words lexicon now store1 rest
    (store2, applied ++ applied1)

/-- Heap-level embedding of `LexiconProcessor.apply_lexicon_corrections`:
the early returns hand back the caller's structure untouched; otherwise
the mutation loop runs on a deep copy and only the copy's word objects
are assigned into. -/
def ref_apply_lexicon_corrections (auto_correction_enabled : Bool)
    (lexicon : Lexicon) (now : Nat) (store : WordStore) (ocr_data : ROcrData) :
    WordStore × ROcrData × List String :=
  if !auto_correction_enabled then (store, ocr_data, [])
  else if lexicon.isEmpty then (store, ocr_data, [])
  else
    let (store1, copy) := deep_copy store ocr_data
    let (store2, applied) := ref_correct_words lexicon now store1 (word_refs copy)
    (store2, copy, applied)

/-- The word loop of `_apply_corrections_to_ocr` at the heap level,
threading the global word index. -/
def ref_integrate_words (by_word_id : List (String × Correction)) (idx : Nat)
    (store : WordStore) : List Nat → WordStore × Nat
  | [] => (store, idx)
  | r :: rest =>
    let w := (store_get? store r).getD default
    let w1 := integrate_word by_word_id idx w
    let store1 := store_set store r w1
    ref_integrate_words by_word_id (idx + 1) store1 rest

/-- Heap-level embedding of `CorrectionIntegrator._apply_corrections_to_ocr`:
a deep copy is taken and only its word objects are assigned into. -/
def ref_apply_corrections_to_ocr (store : WordStore) (ocr_data : ROcrData)
    (corrections : List Correction) : WordStore × ROcrData :=
  let (store1, copy) := deep_copy store ocr_data
  let (store2, _) :=
    ref_integrate_words (corrections_by_word_id corrections) 0 store1 (word_refs copy)
  (store2, copy)

/-! ### Helper lemmas: the dict model -/

theorem dict_update_nil {kk α : Type} [DecidableEq kk] (d : List (kk × α)) :
    dict_update d [] = d := rfl

theorem dict_update_cons {kk α : Type} [DecidableEq kk] (d : List (kk × α)) (kv : kk × α)
    (rest : List (kk × α)) :
    dict_update d (kv :: rest) = dict_update (dict_set d kv.1 kv.2) rest := rfl

theorem dict_get?_set_self {kk α : Type} [DecidableEq kk] (d : List (kk × α)) (k : kk) (v : α) :
    dict_get? (dict_set d k v) k = some v := by
  induction d with
  | nil => simp [dict_set, dict_get?]
  | cons kv rest ih =>
    obtain ⟨k1, v1⟩ := kv
    by_cases h : k1 = k
    · subst h
      simp [dict_set, dict_get?]
    · simp [dict_set, dict_get?, h, ih]

theorem dict_get?_set_ne {kk α : Type} [DecidableEq kk] (d : List (kk × α)) (k k1 : kk) (v : α)
    (h : k1 ≠ k) : dict_get? (dict_set d k v) k1 = dict_get? d k1 := by
  have hkk1 : ¬(k = k1) := fun he => h he.symm
  induction d with
  | nil => simp [dict_set, dict_get?, hkk1]
  | cons kv rest ih =>
    obtain ⟨k2, v2⟩ := kv
    by_cases h2 : k2 = k
    · have hne : ¬(k2 = k1) := fun he => hkk1 (h2.symm.trans he)
      simp only [dict_set, if_pos h2, dict_get?, if_neg hne]
    · simp only [dict_set, if_neg h2, dict_get?]
      by_cases h3 : k2 = k1
      · rw [if_pos h3, if_pos h3]
      · rw [if_neg h3, if_neg h3, ih]

theorem dict_get?_eq_none_iff {kk α : Type} [DecidableEq kk] (d : List (kk × α)) (k : kk) :
    dict_get? d k = none ↔ k ∉ d.map Prod.fst := by
  induction d with
  | nil => simp [dict_get?]
  | cons kv rest ih =>
    obtain ⟨k1, v1⟩ := kv
    by_cases h : k1 = k
    · subst h
      simp [dict_get?]
    · simp only [dict_get?, if_neg h, List.map_cons, List.mem_cons, ih]
      constructor
      · rintro hnone (he | hm)
        · exact h he.symm
        · exact hnone hm
      · intro hn hm
        exact hn (Or.inr hm)

theorem dict_update_get_of_not_mem {kk α : Type} [DecidableEq kk] (l : List (kk × α))
    (d : List (kk × α)) (k : kk) (h : k ∉ l.map Prod.fst) :
    dict_get? (dict_update d l) k = dict_get? d k := by
  induction l generalizing d with
  | nil => rfl
  | cons kv rest ih =>
    simp only [List.map_cons, List.mem_cons, not_or] at h
    rw [dict_update_cons, ih _ h.2, dict_get?_set_ne _ _ _ _ h.1]

theorem dict_update_get_of_get {kk α : Type} [DecidableEq kk] (l : List (kk × α))
    (d : List (kk × α)) (k : kk) (v : α)
    (hnd : (l.map Prod.fst).Nodup) (h : dict_get? l k = some v) :
    dict_get? (dict_update d l) k = some v := by
  induction l generalizing d with
  | nil => simp [dict_get?] at h
  | cons kv rest ih =>
    obtain ⟨k1, v1⟩ := kv
    simp only [List.map_cons, List.nodup_cons] at hnd
    by_cases hk : k1 = k
    · have hv : v1 = v := by simpa [dict_get?, if_pos hk] using h
      subst hv
      rw [dict_update_cons]
      have hmem : k ∉ rest.map Prod.fst := by rw [← hk]; exact hnd.1
      rw [dict_update_get_of_not_mem _ _ _ hmem, ← hk]
      exact dict_get?_set_self d k1 v1
    · simp only [dict_get?, if_neg hk] at h
      rw [dict_update_cons]
      exact ih (dict_set d k1 v1) hnd.2 h

/-! ### Helper lemmas: Python strip -/

theorem dropWhile_of_prefix_of_dropWhile (p : Char → Bool) (l b : List Char)
    (hpre : b <+: List.dropWhile p l) : List.dropWhile p b = b := by
  cases hb : b with
  | nil => simp
  | cons c t =>
    subst hb
    obtain ⟨u, hu⟩ := hpre
    have hdw : List.dropWhile p l = c :: (t ++ u) := by rw [← hu]; simp
    have hc : p c = false := by
      rcases hpc : p c with _ | _
      · rfl
      · exfalso
        have h2 := List.dropWhile_idempotent p l
        rw [hdw, List.dropWhile_cons, if_pos hpc] at h2
        have hlen := congrArg List.length h2
        have hle : (List.dropWhile p (t ++ u)).length ≤ (t ++ u).length :=
          (List.dropWhile_suffix p).sublist.length_le
        simp only [List.length_cons] at hlen
        omega
    simp [List.dropWhile_cons, hc]

theorem py_strip_idem (s : String) : py_strip (py_strip s) = py_strip s := by
  have hdata : (py_strip s).data
      = List.rdropWhile py_is_space (s.data.dropWhile py_is_space) := rfl
  show (⟨List.rdropWhile py_is_space ((py_strip s).data.dropWhile py_is_space)⟩ : String)
      = py_strip s
  rw [hdata,
    dropWhile_of_prefix_of_dropWhile py_is_space s.data _ (List.rdropWhile_prefix _ _),
    List.rdropWhile_idempotent]
  rfl

/-! ### Helper lemmas: save_correction -/

/-- On any accepted submission, `save_correction` leaves the lexicon with
the submitted corrected text under the pair's lexicon key — whatever the
configured learning threshold is (the endpoint never consults it). -/
theorem save_correction_upserts (p : SaveParams) (now : Nat) (st : ServerState)
    (bbox : BBox) (hdoc : p.doc_id ≠ "") (hword : p.word_id ≠ "")
    (horig : p.original_text ≠ "") (hcorr : p.corrected_text ≠ "")
    (hne : p.original_text ≠ p.corrected_text) (hbbox : p.corrected_bbox = some bbox) :
    dict_get? ((save_correction p now st).1.auto_corrections) (text_for_lexicon p)
      = some p.corrected_text := by
  unfold save_correction
  rw [if_neg (by simp [hdoc, hword, horig, hcorr]), if_neg hne, hbbox]
  cases hget : dict_get? st.auto_corrections (text_for_lexicon p) with
  | none => simp only [hget, dict_get?_set_self]
  | some old_correction =>
    by_cases hold : old_correction ≠ p.corrected_text
    · simp only [hget, if_pos hold, dict_get?_set_self]
    · push_neg at hold
      simp only [hget, hold, ne_eq, not_true_eq_false, if_neg, ite_false]

/-! ### Claim theorems -/

/-- Claim C1, counterexample: the configured learning threshold is 2, yet
a single accepted submission of the pair X → Y — whose accumulated
frequency counter is only 1 — already creates the lexicon entry
("X", "Y").  `save_correction` upserts the lexicon unconditionally (its
source comments say "ALWAYS update lexicon"), so the claim that an entry
appears only once the counter reaches the threshold is false for the
live submission path. -/
theorem c1_threshold_counterexample :
    (save_correction ⟨"doc1", 0, "w0", "X", "Y", "", some [], "analyst1"⟩ 0
        ⟨[], [], []⟩).1.correction_frequency = [("X -> Y", 1)]
    ∧ (1 : Nat) < 2
    ∧ (save_correction ⟨"doc1", 0, "w0", "X", "Y", "", some [], "analyst1"⟩ 0
        ⟨[], [], []⟩).1.auto_corrections = [("X", "Y")] := by
  decide

/-- Claim C1, amended: the live `save_correction` endpoint upserts the
lexicon entry on every accepted submission regardless of the configured
threshold, so with threshold 2 already the first submission creates the
entry; only the (uncalled) helper `update_lexicon_async` gates the
upsert on the accumulated frequency: it leaves the lexicon untouched
while the updated counter is below the threshold and upserts the entry
for the pair exactly when the counter has reached it. -/
theorem c1_threshold_amended :
    (∀ (p : SaveParams) (now : Nat) (st : ServerState) (bbox : BBox),
      p.doc_id ≠ "" → p.word_id ≠ "" → p.original_text ≠ "" →
      p.corrected_text ≠ "" → p.original_text ≠ p.corrected_text →
      p.corrected_bbox = some bbox →
      dict_get? ((save_correction p now st).1.auto_corrections) (text_for_lexicon p)
        = some p.corrected_text)
    ∧ (∀ (orig corr : String) (T : Nat) (st : LexiconStore),
      ((update_lexicon_async orig corr T st).2.frequency < T →
        (update_lexicon_async orig corr T st).1.auto_corrections = st.auto_corrections)
      ∧ (T ≤ (update_lexicon_async orig corr T st).2.frequency →
        dict_get? ((update_lexicon_async orig corr T st).1.auto_corrections) orig
          = some corr)) := by
  constructor
  · intro p now st bbox hdoc hword horig hcorr hne hbbox
    exact save_correction_upserts p now st bbox hdoc hword horig hcorr hne hbbox
  · intro orig corr T st
    unfold update_lexicon_async
    simp only
    constructor
    · intro hlt
      rw [if_neg (by omega)]
    · intro hge
      rw [if_pos (by omega)]
      cases hget : dict_get? st.auto_corrections orig with
      | none => simp only [hget, dict_get?_set_self]
      | some old_correction =>
        by_cases hold : old_correction ≠ corr
        · simp only [hget, if_pos hold, dict_get?_set_self]
        · push_neg at hold
          simp only [hget, hold, ne_eq, not_true_eq_false, if_neg, ite_false]

/-- Claim C1, witness for the amended theorem: a concrete run.  With
threshold 2 the helper leaves the lexicon empty after the first call
(frequency 1) and creates the entry on the second identical call
(frequency 2); the endpoint inserts the entry at once. -/
theorem c1_threshold_amended_witness :
    dict_get? ((save_correction ⟨"d", 0, "w0", "X", "Y", "", some [], "a"⟩ 0
        ⟨[], [], []⟩).1.auto_corrections)
      (text_for_lexicon ⟨"d", 0, "w0", "X", "Y", "", some [], "a"⟩) = some "Y"
    ∧ ((update_lexicon_async "X" "Y" 2 ⟨[], []⟩).2.frequency < 2 →
      (update_lexicon_async "X" "Y" 2 ⟨[], []⟩).1.auto_corrections = [])
    ∧ (2 ≤ (update_lexicon_async "X" "Y" 2
          (update_lexicon_async "X" "Y" 2 ⟨[], []⟩).1).2.frequency →
      dict_get? ((update_lexicon_async "X" "Y" 2
          (update_lexicon_async "X" "Y" 2 ⟨[], []⟩).1).1.auto_corrections) "X"
        = some "Y") :=
  ⟨c1_threshold_amended.1 _ 0 _ [] (by decide) (by decide) (by decide) (by decide)
      (by decide) rfl,
    (c1_threshold_amended.2 "X" "Y" 2 ⟨[], []⟩).1,
    (c1_threshold_amended.2 "X" "Y" 2 (update_lexicon_async "X" "Y" 2 ⟨[], []⟩).1).2⟩

/-- Claim C2: two accepted submissions for the same original token X with
corrected texts Y then Z (the later submission carries the larger
wall-clock timestamp, since `save_correction` stamps entries with the
time of the call); afterwards the exact-match resolution of X returns Z,
the corrected text of the later submission: the later upsert overwrote
the lexicon entry. -/
theorem c2_newest_wins (st : ServerState) (doc1 doc2 w1 w2 X Y Z u1 u2 : String)
    (b1 b2 : BBox) (pg1 pg2 : Int) (t1 t2 : Nat)
    (hdoc1 : doc1 ≠ "") (hdoc2 : doc2 ≠ "") (hw1 : w1 ≠ "") (hw2 : w2 ≠ "")
    (hX : X ≠ "") (hY : Y ≠ "") (hZ : Z ≠ "")
    (hXY : X ≠ Y) (hXZ : X ≠ Z) (hYZ : Y ≠ Z) (hstrip : py_strip X = X) :
    find_correction X
      ((save_correction ⟨doc2, pg2, w2, X, Z, "", some b2, u2⟩ t2
        ((save_correction ⟨doc1, pg1, w1, X, Y, "", some b1, u1⟩ t1 st).1)).1.auto_corrections)
      = Z := by
  have h2 := save_correction_upserts ⟨doc2, pg2, w2, X, Z, "", some b2, u2⟩ t2
    ((save_correction ⟨doc1, pg1, w1, X, Y, "", some b1, u1⟩ t1 st).1) b2
    hdoc2 hw2 hX hZ hXZ rfl
  have hkey : text_for_lexicon ⟨doc2, pg2, w2, X, Z, "", some b2, u2⟩ = X := by
    simp [text_for_lexicon]
  rw [hkey] at h2
  unfold find_correction
  simp only [hstrip, h2]

/-- Claim C2, witness: concrete newest-wins run. -/
theorem c2_newest_wins_witness :
    find_correction "X"
      ((save_correction ⟨"docB", 0, "w3", "X", "Z", "", some [], "u2"⟩ 2
        ((save_correction ⟨"docA", 0, "w1", "X", "Y", "", some [], "u1"⟩ 1
          ⟨[], [], []⟩).1)).1.auto_corrections) = "Z" :=
  c2_newest_wins ⟨[], [], []⟩ "docA" "docB" "w1" "w3" "X" "Y" "Z" "u1" "u2"
    [] [] 0 0 1 2 (by decide) (by decide) (by decide) (by decide) (by decide)
    (by decide) (by decide) (by decide) (by decide) (by decide) (by decide)

/-- Claim C3: a submission whose original text equals its corrected text
is rejected without side effects: the persisted state (corrections log,
frequency table, lexicon) is returned unchanged and the response is not
an accepted save — it is the no-change rejection, or the
missing-parameters rejection when the texts are also empty. -/
theorem c3_noop_rejected (p : SaveParams) (now : Nat) (st : ServerState)
    (h : p.original_text = p.corrected_text) :
    (save_correction p now st).1 = st
    ∧ ((save_correction p now st).2).accepted = false := by
  unfold save_correction
  by_cases hmiss : p.doc_id = "" ∨ p.word_id = "" ∨ p.original_text = ""
      ∨ p.corrected_text = ""
  · rw [if_pos hmiss]
    exact ⟨rfl, rfl⟩
  · rw [if_neg hmiss, if_pos h]
    exact ⟨rfl, rfl⟩

/-- Claim C3, witness: resubmitting X → X is rejected and the state is
untouched. -/
theorem c3_noop_rejected_witness :
    (save_correction ⟨"doc1", 0, "w0", "X", "X", "", some [], "analyst1"⟩ 5
      ⟨[], [], []⟩).1 = ⟨[], [], []⟩
    ∧ ((save_correction ⟨"doc1", 0, "w0", "X", "X", "", some [], "analyst1"⟩ 5
      ⟨[], [], []⟩).2).accepted = false :=
  c3_noop_rejected _ 5 _ rfl

/-- Claim C4, counterexample: with the correction ABCDEF → ABCXYZ stored
in the lexicon, the token "ABCDEF<<<" does not resolve to "ABCXYZ<<<":
`_find_correction` has no prefix-matching strategy (exact,
case-insensitive and whitespace-normalized all miss), so the token is
returned unchanged. -/
theorem c4_no_prefix_counterexample :
    find_correction "ABCDEF<<<" [("ABCDEF", "ABCXYZ")] = "ABCDEF<<<"
    ∧ "ABCDEF<<<" ≠ "ABCXYZ<<<" := by
  decide

/-- Claim C4, amended: the lexicon applicator has no prefix strategy: a
token that strictly extends the stored key "ABCDEF" by the suffix "<<<"
(length 3, below the bound of 5 the spec describes) matches none of its
three strategies and passes through unchanged, whatever corrected text
the entry stores. -/
theorem c4_no_prefix_strategy (corr : String) :
    find_correction "ABCDEF<<<" [("ABCDEF", corr)] = "ABCDEF<<<" := by
  have hstrip : py_strip "ABCDEF<<<" = "ABCDEF<<<" := by decide
  have h1 : dict_get? [("ABCDEF", corr)] "ABCDEF<<<" = none := by
    simp only [dict_get?]
    rw [if_neg (by decide : ¬("ABCDEF" = "ABCDEF<<<"))]
  have h2 : (py_lower "ABCDEF" == py_lower "ABCDEF<<<") = false := by decide
  have h3 : (normalize_for_comparison "ABCDEF" == normalize_for_comparison "ABCDEF<<<")
      = false := by decide
  unfold find_correction
  simp only [hstrip, h1, List.find?, h2, h3]

/-! ### Helper lemmas: case predicates -/

theorem py_upper_char_not_lower (c : Char) (h : py_is_upper_char c = true) :
    py_is_lower_char c = false := by
  simp only [py_is_upper_char, decide_eq_true_eq] at h
  simp only [py_is_lower_char, decide_eq_false_iff_not]
  omega

theorem py_is_lower_not_upper (s : String) (h : py_is_lower s = true) :
    py_is_upper s = false := by
  simp only [py_is_lower, Bool.and_eq_true, List.any_eq_true, List.all_eq_true] at h
  obtain ⟨⟨c, hc, hcased⟩, hall⟩ := h
  apply Bool.eq_false_iff.mpr
  intro hu
  simp only [py_is_upper, Bool.and_eq_true, List.any_eq_true, List.all_eq_true] at hu
  obtain ⟨-, hallu⟩ := hu
  have h1 := hall c hc
  have h2 := hallu c hc
  rw [hcased] at h1 h2
  simp only [Bool.not_true, Bool.false_or] at h1 h2
  have := py_upper_char_not_lower c h2
  rw [h1] at this
  exact absurd this (by decide)

theorem py_is_lower_not_title (s : String) (h : py_is_lower s = true) :
    py_title_pattern s = false := by
  rcases hd : s.data with _ | ⟨c, rest⟩
  · simp [py_title_pattern, hd]
  · simp only [py_title_pattern, hd]
    have hmem : c ∈ s.data := by rw [hd]; exact List.mem_cons_self c rest
    simp only [py_is_lower, Bool.and_eq_true, List.all_eq_true] at h
    have hcl := h.2 c hmem
    have hc : py_is_upper_char c = false := by
      apply Bool.eq_false_iff.mpr
      intro hup
      have hcased : py_is_cased_char c = true := by
        simp [py_is_cased_char, hup]
      rw [hcased] at hcl
      simp only [Bool.not_true, Bool.false_or] at hcl
      have := py_upper_char_not_lower c hup
      rw [hcl] at this
      cases this
    simp [hc]

/-- Claim C5: when the applicator corrects a token through the
case-insensitive strategy the output case is rebuilt from the input
token's case pattern: for the entry hello → world the input HELLO
resolves to WORLD and the input Hello to World; for every all-lowercase
input the correction is lowercased; and for an input matching none of
the three case patterns (all-uppercase, title, all-lowercase) the stored
correction is returned verbatim. -/
theorem c5_case_preservation :
    find_correction "HELLO" [("hello", "world")] = "WORLD"
    ∧ find_correction "Hello" [("hello", "world")] = "World"
    ∧ (∀ input corrected : String, py_is_lower input = true →
        preserve_case input corrected = py_lower corrected)
    ∧ (∀ input corrected : String, input ≠ "" → corrected ≠ "" →
        py_is_upper input = false → py_title_pattern input = false →
        py_is_lower input = false → preserve_case input corrected = corrected) := by
  refine ⟨by decide, by decide, ?_, ?_⟩
  · intro input corrected h
    have hne : input ≠ "" := by
      intro he
      subst he
      exact absurd h (by decide)
    by_cases hc : corrected = ""
    · subst hc
      have hl : py_lower "" = "" := rfl
      simp [preserve_case, hl]
    · unfold preserve_case
      rw [if_neg (by simp [hne, hc]),
        if_neg (by simp [py_is_lower_not_upper input h]),
        if_neg (by simp [py_is_lower_not_title input h]),
        if_pos (by simp [h])]
  · intro input corrected hne hc hup hti hlo
    unfold preserve_case
    rw [if_neg (by simp [hne, hc]), if_neg (by simp [hup]),
      if_neg (by simp [hti]), if_neg (by simp [hlo])]

/-- Claim C5, witness: the symbolic parts at concrete inputs — the
all-lowercase input "iban" (matched case-insensitively against key
"Iban") lowercases the stored correction, and the mixed-case input
"hELLO" keeps the stored correction verbatim. -/
theorem c5_case_preservation_witness :
    preserve_case "iban" "KONTO" = "konto"
    ∧ preserve_case "hELLO" "world" = "world" :=
  ⟨c5_case_preservation.2.2.1 "iban" "KONTO" (by decide),
    c5_case_preservation.2.2.2 "hELLO" "world" (by decide) (by decide)
      (by decide) (by decide) (by decide)⟩

/-- Claim C6: per token the applicator consults exact, then
case-insensitive, then whitespace-normalized matching, the first
successful strategy alone determining the result; and the lexicon it
matches against is the global dict updated by the document-type dict,
so a document-type entry wins on key collision and a key present only
in the global dict keeps its global value. -/
theorem c6_matching_order :
    (∀ (lexicon : Lexicon) (t v : String),
      dict_get? lexicon (py_strip t) = some v → find_correction t lexicon = v)
    ∧ (∀ (lexicon : Lexicon) (t : String) (e : String × String),
      dict_get? lexicon (py_strip t) = none →
      lexicon.find? (fun kv => py_lower kv.1 == py_lower (py_strip t)) = some e →
      find_correction t lexicon = preserve_case (py_strip t) e.2)
    ∧ (∀ (lexicon : Lexicon) (t : String) (e : String × String),
      dict_get? lexicon (py_strip t) = none →
      lexicon.find? (fun kv => py_lower kv.1 == py_lower (py_strip t)) = none →
      lexicon.find? (fun kv => normalize_for_comparison kv.1
          == normalize_for_comparison (py_strip t)) = some e →
      find_correction t lexicon = e.2)
    ∧ (∀ (g ty : Lexicon) (k v : String),
      (ty.map Prod.fst).Nodup →
      dict_get? ty k = some v → dict_get? (load_lexicon g ty) k = some v)
    ∧ (∀ (g ty : Lexicon) (k : String),
      (g.map Prod.fst).Nodup →
      dict_get? ty k = none → dict_get? (load_lexicon g ty) k = dict_get? g k) := by
  refine ⟨?_, ?_, ?_, ?_, ?_⟩
  · intro lexicon t v h
    unfold find_correction
    simp only [h]
  · intro lexicon t e h1 h2
    unfold find_correction
    simp only [h1, h2]
  · intro lexicon t e h1 h2 h3
    unfold find_correction
    simp only [h1, h2, h3]
  · intro g ty k v hnd h
    exact dict_update_get_of_get ty _ k v hnd h
  · intro g ty k hg h
    unfold load_lexicon
    rw [dict_update_get_of_not_mem ty _ k ((dict_get?_eq_none_iff ty k).mp h)]
    cases hgk : dict_get? g k with
    | none =>
      rw [dict_update_get_of_not_mem g _ k ((dict_get?_eq_none_iff g k).mp hgk)]
      rfl
    | some w => exact dict_update_get_of_get g _ k w hg hgk

/-- Claim C6, witness: the exact strategy wins over a case-insensitive
candidate that would give a different answer, and the combined lexicon
prefers the document-type value for a colliding key while keeping the
global value for a type-free key. -/
theorem c6_matching_order_witness :
    find_correction "AA" [("AA", "BB"), ("aa", "CC")] = "BB"
    ∧ dict_get? (load_lexicon [("k", "g"), ("j", "x")] [("k", "t")]) "k" = some "t"
    ∧ dict_get? (load_lexicon [("k", "g"), ("j", "x")] [("k", "t")]) "j"
      = dict_get? [("k", "g"), ("j", "x")] "j" :=
  ⟨c6_matching_order.1 [("AA", "BB"), ("aa", "CC")] "AA" "BB" (by decide),
    c6_matching_order.2.2.2.1 [("k", "g"), ("j", "x")] [("k", "t")] "k" "t"
      (by decide) (by decide),
    c6_matching_order.2.2.2.2 [("k", "g"), ("j", "x")] [("k", "t")] "j"
      (by decide) (by decide)⟩

/-- Claim C9: a token for which none of the three matching strategies
produces a candidate passes through unchanged — `_find_correction`
returns the input itself, so the word loop leaves the word exactly as it
was (same value, no auto-correction annotations) and records no applied
correction; the miss is an ordinary outcome, not an error path. -/
theorem c9_lookup_miss (lexicon : Lexicon) (now : Nat) (word : Word)
    (h1 : dict_get? lexicon (py_strip word.value) = none)
    (h2 : lexicon.find? (fun kv => py_lower kv.1
        == py_lower (py_strip word.value)) = none)
    (h3 : lexicon.find? (fun kv => normalize_for_comparison kv.1
        == normalize_for_comparison (py_strip word.value)) = none) :
    find_correction (py_strip word.value) lexicon = py_strip word.value
    ∧ correct_word lexicon now word = (word, []) := by
  have hfc : find_correction (py_strip word.value) lexicon = py_strip word.value := by
    unfold find_correction
    rw [py_strip_idem]
    simp only [h1, h2, h3]
  refine ⟨hfc, ?_⟩
  unfold correct_word
  by_cases hv : py_strip word.value = ""
  · rw [if_pos hv]
  · rw [if_neg hv]
    simp only [hfc]
    rw [if_neg (by simp)]

/-- Claim C9, witness: a token matched by no strategy is untouched. -/
theorem c9_lookup_miss_witness :
    find_correction (py_strip "QQ-77") [("abc", "xyz")] = py_strip "QQ-77"
    ∧ correct_word [("abc", "xyz")] 9 { value := "QQ-77" }
      = ({ value := "QQ-77" }, []) :=
  c9_lookup_miss [("abc", "xyz")] 9 { value := "QQ-77" }
    (by decide) (by decide) (by decide)

/-! ### Helper lemmas: no-op application passes -/

theorem correct_word_fixed (lexicon : Lexicon) (now : Nat) (w : Word)
    (h : find_correction (py_strip w.value) lexicon = py_strip w.value) :
    correct_word lexicon now w = (w, []) := by
  unfold correct_word
  by_cases hv : py_strip w.value = ""
  · rw [if_pos hv]
  · rw [if_neg hv]
    simp only [h]
    rw [if_neg (by simp)]

theorem map_pair_noop {α : Type} (g : α → α × List String) (xs : List α)
    (h : ∀ x ∈ xs, g x = (x, [])) :
    (xs.map g).map Prod.fst = xs ∧ ((xs.map g).map Prod.snd).flatten = [] := by
  induction xs with
  | nil => exact ⟨rfl, rfl⟩
  | cons x rest ih =>
    obtain ⟨ih1, ih2⟩ := ih (fun y hy => h y (List.mem_cons_of_mem x hy))
    have hx := h x (List.mem_cons_self x rest)
    refine ⟨?_, ?_⟩
    · simp [hx, ih1]
    · simp only [List.map_cons, hx, List.flatten_cons, List.nil_append, ih2]

theorem correct_line_noop (lexicon : Lexicon) (now : Nat) (l : Line)
    (h : ∀ w ∈ l.words, correct_word lexicon now w = (w, [])) :
    correct_line lexicon now l = (l, []) := by
  obtain ⟨ws⟩ := l
  obtain ⟨h1, h2⟩ := map_pair_noop (correct_word lexicon now) ws h
  unfold correct_line
  simp only [h1, h2]

theorem correct_block_noop (lexicon : Lexicon) (now : Nat) (b : Block)
    (h : ∀ w ∈ b.lines.flatMap Line.words, correct_word lexicon now w = (w, [])) :
    correct_block lexicon now b = (b, []) := by
  obtain ⟨ls⟩ := b
  have hl : ∀ l ∈ ls, correct_line lexicon now l = (l, []) := by
    intro l hlm
    apply correct_line_noop
    intro w hw
    exact h w (List.mem_flatMap.mpr ⟨l, hlm, hw⟩)
  obtain ⟨h1, h2⟩ := map_pair_noop (correct_line lexicon now) ls hl
  unfold correct_block
  simp only [h1, h2]

theorem correct_page_noop (lexicon : Lexicon) (now : Nat) (p : Page)
    (h : ∀ w ∈ p.blocks.flatMap (fun b => b.lines.flatMap Line.words),
      correct_word lexicon now w = (w, [])) :
    correct_page lexicon now p = (p, []) := by
  obtain ⟨bs⟩ := p
  have hb : ∀ b ∈ bs, correct_block lexicon now b = (b, []) := by
    intro b hbm
    apply correct_block_noop
    intro w hw
    exact h w (List.mem_flatMap.mpr ⟨b, hbm, hw⟩)
  obtain ⟨h1, h2⟩ := map_pair_noop (correct_block lexicon now) bs hb
  unfold correct_page
  simp only [h1, h2]

/-- Claim C7, counterexample: with the chained lexicon A → B, B → C and
the one-word stream A, the first application rewrites A to B, and the
second application — on the first one's own output, lexicon unchanged —
rewrites it again to C: the corrections-applied list of the second pass
is not empty and its word stream differs from its input. -/
theorem c7_idempotence_counterexample :
    ((apply_lexicon_corrections true [("A", "B"), ("B", "C")] 0
      (apply_lexicon_corrections true [("A", "B"), ("B", "C")] 0
        (OcrData.mk [Page.mk [Block.mk [Line.mk [{ value := "A" }]]]])).1).2 ≠ [])
    ∧ ((apply_lexicon_corrections true [("A", "B"), ("B", "C")] 0
      (apply_lexicon_corrections true [("A", "B"), ("B", "C")] 0
        (OcrData.mk [Page.mk [Block.mk [Line.mk [{ value := "A" }]]]])).1).1
      ≠ (apply_lexicon_corrections true [("A", "B"), ("B", "C")] 0
        (OcrData.mk [Page.mk [Block.mk [Line.mk [{ value := "A" }]]]])).1) := by
  decide

/-- Claim C7, amended: application is a no-op — identical word stream
and empty corrections-applied list — on every stream whose (stripped)
word values are all left unchanged by `_find_correction`.  Re-applying
the applicator to its own output is therefore a no-op exactly when the
first pass left only such values, e.g. when no corrected value is itself
a further-correctable lexicon key; with a chained lexicon (A → B, B → C)
the second application corrects again, so unconditional idempotence
fails. -/
theorem c7_idempotent_amended (lexicon : Lexicon) (now : Nat) (d : OcrData)
    (h : ∀ w ∈ words_of d,
      find_correction (py_strip w.value) lexicon = py_strip w.value) :
    apply_lexicon_corrections true lexicon now d = (d, []) := by
  have hw : ∀ w ∈ words_of d, correct_word lexicon now w = (w, []) :=
    fun w hm => correct_word_fixed lexicon now w (h w hm)
  unfold apply_lexicon_corrections
  rw [if_neg (by simp)]
  by_cases hemp : lexicon.isEmpty
  · rw [if_pos hemp]
  · rw [if_neg hemp]
    obtain ⟨ps⟩ := d
    have hp : ∀ p ∈ ps, correct_page lexicon now p = (p, []) := by
      intro p hpm
      apply correct_page_noop
      intro w hwm
      apply hw
      unfold words_of
      exact List.mem_flatMap.mpr ⟨p, hpm, hwm⟩
    obtain ⟨h1, h2⟩ := map_pair_noop (correct_page lexicon now) ps hp
    simp only [h1, h2]

/-- Claim C7, witness: a stream that already carries the lexicon target
value B is returned identically with an empty corrections list. -/
theorem c7_idempotent_amended_witness :
    apply_lexicon_corrections true [("A", "B")] 3
      (OcrData.mk [Page.mk [Block.mk [Line.mk [{ value := "B" }]]]])
      = ((OcrData.mk [Page.mk [Block.mk [Line.mk [{ value := "B" }]]]]), []) :=
  c7_idempotent_amended [("A", "B")] 3
    (OcrData.mk [Page.mk [Block.mk [Line.mk [{ value := "B" }]]]]) (by decide)

/-- Claim C8, counterexample: a malformed line can abort the load and
drop later valid records.  A valid-JSON non-object line (on which
`correction_data.get` raises the uncaught `AttributeError`) followed by
a fully valid record for the requested document loads nothing, while
the log restricted to its well-formed lines loads that record — so the
result of a mixed log does not equal the result of its valid
restriction, and the malformed line did alter the handling of another
record. -/
theorem c8_abort_counterexample :
    load_corrections
      [LogLine.nonobject,
        LogLine.record
          { document_id := some "d", page := some 0, word_id := some "w0",
            corrected_text := some "T", corrected_bbox := some [],
            user_id := some "u", timestamp := .iso 1 }] "d" = []
    ∧ load_corrections
      ([LogLine.nonobject,
        LogLine.record
          { document_id := some "d", page := some 0, word_id := some "w0",
            corrected_text := some "T", corrected_bbox := some [],
            user_id := some "u", timestamp := .iso 1 }].filter valid_line) "d"
      = [{ document_id := "d", page := 0, word_id := "w0", original_text := "",
            corrected_text := "T", corrected_bbox := [], user_id := "u",
            timestamp := 1, correction_type := "text_edit" }] := by
  decide

/-- Claim C8, amended: a malformed record of a kind the inner handler
catches — a blank line, a line that is not parseable JSON, or an object
record missing a required field or carrying a timestamp string
`fromisoformat` rejects — is skipped and never alters the loading of
other records: on any log free of abort lines the loaded list equals
that of the log restricted to its well-formed lines, and hence so does
any downstream result such as applying the loaded corrections to an OCR
document.  But a line of valid non-object JSON, or a record for the
requested document whose timestamp is present and not a string, escapes
the inner handler and aborts the load: the loader returns exactly the
corrections collected before that line, whatever follows it. -/
theorem c8_malformed_amended :
    (∀ (lines : List LogLine) (doc_id : String) (ocr : OcrData),
      abort_free lines doc_id = true →
      load_corrections lines doc_id = load_corrections (lines.filter valid_line) doc_id
      ∧ apply_corrections_to_ocr ocr (load_corrections lines doc_id)
        = apply_corrections_to_ocr ocr
          (load_corrections (lines.filter valid_line) doc_id))
    ∧ (∀ (pre post : List LogLine) (doc_id : String),
      load_corrections (pre ++ LogLine.nonobject :: post) doc_id
        = load_corrections pre doc_id)
    ∧ (∀ (pre post : List LogLine) (doc_id : String) (r : RawRecord),
      r.document_id = some doc_id → build_correction r = .abort →
      load_corrections (pre ++ LogLine.record r :: post) doc_id
        = load_corrections pre doc_id) := by
  refine ⟨?_, ?_, ?_⟩
  · intro lines doc_id ocr hfree
    have h : load_corrections lines doc_id
        = load_corrections (lines.filter valid_line) doc_id := by
      induction lines with
      | nil => rfl
      | cons l rest ih =>
        simp only [abort_free, List.all_cons, Bool.and_eq_true, Bool.not_eq_true] at hfree
        have ihr := ih hfree.2
        cases l with
        | blank =>
          rw [List.filter_cons]
          simpa [load_corrections, valid_line] using ihr
        | invalid =>
          rw [List.filter_cons]
          simpa [load_corrections, valid_line] using ihr
        | nonobject => simp [line_aborts] at hfree
        | record r =>
          rw [List.filter_cons]
          by_cases hd : r.document_id = some doc_id
          · cases hb : build_correction r with
            | built c =>
              rw [if_pos (by simp [valid_line, hb])]
              simp only [load_corrections, if_pos hd, hb, ihr]
            | skip =>
              rw [if_neg (by simp [valid_line, hb])]
              simp only [load_corrections, if_pos hd, hb]
              exact ihr
            | abort =>
              exfalso
              have := hfree.1
              simp [line_aborts, hd, hb] at this
          · by_cases hv : valid_line (LogLine.record r) = true
            · rw [if_pos hv]
              simp only [load_corrections, if_neg hd]
              exact ihr
            · rw [if_neg hv]
              simp only [load_corrections, if_neg hd]
              exact ihr
    exact ⟨h, by rw [h]⟩
  · intro pre post doc_id
    induction pre with
    | nil => rfl
    | cons l rest ih =>
      cases l with
      | blank => simpa [load_corrections] using ih
      | invalid => simpa [load_corrections] using ih
      | nonobject => rfl
      | record r =>
        by_cases hd : r.document_id = some doc_id
        · cases hb : build_correction r with
          | built c =>
            simp only [List.cons_append, load_corrections, if_pos hd, hb]
            exact congrArg (List.cons c) ih
          | skip =>
            simp only [List.cons_append, load_corrections, if_pos hd, hb]
            exact ih
          | abort => simp only [List.cons_append, load_corrections, if_pos hd, hb]
        · simp only [List.cons_append, load_corrections, if_neg hd]
          exact ih
  · intro pre post doc_id r hdoc habort
    induction pre with
    | nil =>
      simp only [List.nil_append, load_corrections, if_pos hdoc, habort]
    | cons l rest ih =>
      cases l with
      | blank => simpa [load_corrections] using ih
      | invalid => simpa [load_corrections] using ih
      | nonobject => rfl
      | record r1 =>
        by_cases hd : r1.document_id = some doc_id
        · cases hb : build_correction r1 with
          | built c =>
            simp only [List.cons_append, load_corrections, if_pos hd, hb]
            exact congrArg (List.cons c) ih
          | skip =>
            simp only [List.cons_append, load_corrections, if_pos hd, hb]
            exact ih
          | abort => simp only [List.cons_append, load_corrections, if_pos hd, hb]
        · simp only [List.cons_append, load_corrections, if_neg hd]
          exact ih

/-- Claim C8, witness: a concrete abort-free log mixing a blank line, an
unparseable line, a field-missing record and a valid record loads the
same corrections as its valid restriction; and a concrete non-object
line or TypeError record drops a later valid record. -/
theorem c8_malformed_amended_witness :
    (load_corrections
        [LogLine.blank, LogLine.invalid,
          LogLine.record { document_id := some "d" },
          LogLine.record
            { document_id := some "d", page := some 0, word_id := some "w0",
              corrected_text := some "T", corrected_bbox := some [],
              user_id := some "u", timestamp := .iso 1 }] "d"
      = load_corrections
        ([LogLine.blank, LogLine.invalid,
          LogLine.record { document_id := some "d" },
          LogLine.record
            { document_id := some "d", page := some 0, word_id := some "w0",
              corrected_text := some "T", corrected_bbox := some [],
              user_id := some "u", timestamp := .iso 1 }].filter valid_line) "d")
    ∧ load_corrections
        ([] ++ LogLine.nonobject ::
          [LogLine.record
            { document_id := some "d", page := some 0, word_id := some "w0",
              corrected_text := some "T", corrected_bbox := some [],
              user_id := some "u", timestamp := .iso 1 }]) "d"
      = load_corrections [] "d"
    ∧ load_corrections
        ([] ++ LogLine.record
          { document_id := some "d", page := some 0, word_id := some "w0",
            corrected_text := some "T", corrected_bbox := some [],
            user_id := some "u", timestamp := .non_string } ::
          [LogLine.record
            { document_id := some "d", page := some 0, word_id := some "w0",
              corrected_text := some "T", corrected_bbox := some [],
              user_id := some "u", timestamp := .iso 1 }]) "d"
      = load_corrections [] "d" :=
  ⟨(c8_malformed_amended.1
      [LogLine.blank, LogLine.invalid,
        LogLine.record { document_id := some "d" },
        LogLine.record
          { document_id := some "d", page := some 0, word_id := some "w0",
            corrected_text := some "T", corrected_bbox := some [],
            user_id := some "u", timestamp := .iso 1 }] "d"
      (OcrData.mk []) (by decide)).1,
    c8_malformed_amended.2.1 []
      [LogLine.record
        { document_id := some "d", page := some 0, word_id := some "w0",
          corrected_text := some "T", corrected_bbox := some [],
          user_id := some "u", timestamp := .iso 1 }] "d",
    c8_malformed_amended.2.2 []
      [LogLine.record
        { document_id := some "d", page := some 0, word_id := some "w0",
          corrected_text := some "T", corrected_bbox := some [],
          user_id := some "u", timestamp := .iso 1 }] "d"
      { document_id := some "d", page := some 0, word_id := some "w0",
        corrected_text := some "T", corrected_bbox := some [],
        user_id := some "u", timestamp := .non_string }
      (by decide) (by decide)⟩

/-! ### Helper lemmas: the heap model -/

theorem store_get?_set_ne (st : WordStore) (r q : Nat) (w : Word) (h : q ≠ r) :
    store_get? (store_set st r w) q = store_get? st q :=
  dict_get?_set_ne st r q w h

theorem copy_words_spec (rs : List Nat) (st : WordStore) (next : Nat) :
    next ≤ (copy_words st next rs).2.2
    ∧ (∀ r1 ∈ (copy_words st next rs).2.1, next ≤ r1)
    ∧ (∀ q, q < next → store_get? (copy_words st next rs).1 q = store_get? st q) := by
  induction rs generalizing st next with
  | nil =>
    refine ⟨le_refl _, ?_, fun q hq => rfl⟩
    intro r1 hr
    simp [copy_words] at hr
  | cons r rest ih =>
    obtain ⟨ih1, ih2, ih3⟩ := ih ((next, (store_get? st r).getD default) :: st) (next + 1)
    refine ⟨?_, ?_, ?_⟩
    · show next ≤
        (copy_words ((next, (store_get? st r).getD default) :: st) (next + 1) rest).2.2
      omega
    · intro r1 hr
      have hr2 : r1 ∈ next ::
          (copy_words ((next, (store_get? st r).getD default) :: st) (next + 1) rest).2.1
        := hr
      rcases List.mem_cons.mp hr2 with he | hm
      · omega
      · have := ih2 r1 hm
        omega
    · intro q hq
      show store_get?
        (copy_words ((next, (store_get? st r).getD default) :: st) (next + 1) rest).1 q
        = store_get? st q
      rw [ih3 q (by omega)]
      show dict_get? ((next, (store_get? st r).getD default) :: st) q = store_get? st q
      simp only [dict_get?]
      rw [if_neg (by omega)]
      rfl

theorem copy_lines_spec (ls : List RLine) (st : WordStore) (next : Nat) :
    next ≤ (copy_lines st next ls).2.2
    ∧ (∀ r1 ∈ ((copy_lines st next ls).2.1).flatMap RLine.words, next ≤ r1)
    ∧ (∀ q, q < next → store_get? (copy_lines st next ls).1 q = store_get? st q) := by
  induction ls generalizing st next with
  | nil =>
    refine ⟨le_refl _, ?_, fun q hq => rfl⟩
    intro r1 hr
    simp [copy_lines] at hr
  | cons l rest ih =>
    obtain ⟨ihw1, ihw2, ihw3⟩ := copy_words_spec l.words st next
    obtain ⟨ih1, ih2, ih3⟩ :=
      ih (copy_words st next l.words).1 (copy_words st next l.words).2.2
    refine ⟨?_, ?_, ?_⟩
    · show next ≤ (copy_lines (copy_words st next l.words).1
        (copy_words st next l.words).2.2 rest).2.2
      omega
    · intro r1 hr
      have hr2 : r1 ∈ (RLine.mk (copy_words st next l.words).2.1 ::
          (copy_lines (copy_words st next l.words).1
            (copy_words st next l.words).2.2 rest).2.1).flatMap RLine.words := hr
      simp only [List.flatMap_cons, List.mem_append] at hr2
      rcases hr2 with hr2 | hr2
      · exact ihw2 r1 hr2
      · have := ih2 r1 hr2
        omega
    · intro q hq
      show store_get? (copy_lines (copy_words st next l.words).1
          (copy_words st next l.words).2.2 rest).1 q = store_get? st q
      rw [ih3 q (by omega), ihw3 q hq]

theorem copy_blocks_spec (bs : List RBlock) (st : WordStore) (next : Nat) :
    next ≤ (copy_blocks st next bs).2.2
    ∧ (∀ r1 ∈ ((copy_blocks st next bs).2.1).flatMap
        (fun b => b.lines.flatMap RLine.words), next ≤ r1)
    ∧ (∀ q, q < next → store_get? (copy_blocks st next bs).1 q = store_get? st q) := by
  induction bs generalizing st next with
  | nil =>
    refine ⟨le_refl _, ?_, fun q hq => rfl⟩
    intro r1 hr
    simp [copy_blocks] at hr
  | cons b rest ih =>
    obtain ⟨ihl1, ihl2, ihl3⟩ := copy_lines_spec b.lines st next
    obtain ⟨ih1, ih2, ih3⟩ :=
      ih (copy_lines st next b.lines).1 (copy_lines st next b.lines).2.2
    refine ⟨?_, ?_, ?_⟩
    · show next ≤ (copy_blocks (copy_lines st next b.lines).1
        (copy_lines st next b.lines).2.2 rest).2.2
      omega
    · intro r1 hr
      have hr2 : r1 ∈ (RBlock.mk (copy_lines st next b.lines).2.1 ::
          (copy_blocks (copy_lines st next b.lines).1
            (copy_lines st next b.lines).2.2 rest).2.1).flatMap
          (fun bl => bl.lines.flatMap RLine.words) := hr
      simp only [List.flatMap_cons, List.mem_append] at hr2
      rcases hr2 with hr2 | hr2
      · exact ihl2 r1 hr2
      · have := ih2 r1 hr2
        omega
    · intro q hq
      show store_get? (copy_blocks (copy_lines st next b.lines).1
          (copy_lines st next b.lines).2.2 rest).1 q = store_get? st q
      rw [ih3 q (by omega), ihl3 q hq]

theorem copy_pages_spec (ps : List RPage) (st : WordStore) (next : Nat) :
    next ≤ (copy_pages st next ps).2.2
    ∧ (∀ r1 ∈ ((copy_pages st next ps).2.1).flatMap
        (fun p => p.blocks.flatMap (fun b => b.lines.flatMap RLine.words)), next ≤ r1)
    ∧ (∀ q, q < next → store_get? (copy_pages st next ps).1 q = store_get? st q) := by
  induction ps generalizing st next with
  | nil =>
    refine ⟨le_refl _, ?_, fun q hq => rfl⟩
    intro r1 hr
    simp [copy_pages] at hr
  | cons p rest ih =>
    obtain ⟨ihb1, ihb2, ihb3⟩ := copy_blocks_spec p.blocks st next
    obtain ⟨ih1, ih2, ih3⟩ :=
      ih (copy_blocks st next p.blocks).1 (copy_blocks st next p.blocks).2.2
    refine ⟨?_, ?_, ?_⟩
    · show next ≤ (copy_pages (copy_blocks st next p.blocks).1
        (copy_blocks st next p.blocks).2.2 rest).2.2
      omega
    · intro r1 hr
      have hr2 : r1 ∈ (RPage.mk (copy_blocks st next p.blocks).2.1 ::
          (copy_pages (copy_blocks st next p.blocks).1
            (copy_blocks st next p.blocks).2.2 rest).2.1).flatMap
          (fun pg => pg.blocks.flatMap (fun bl => bl.lines.flatMap RLine.words)) := hr
      simp only [List.flatMap_cons, List.mem_append] at hr2
      rcases hr2 with hr2 | hr2
      · exact ihb2 r1 hr2
      · have := ih2 r1 hr2
        omega
    · intro q hq
      show store_get? (copy_pages (copy_blocks st next p.blocks).1
          (copy_blocks st next p.blocks).2.2 rest).1 q = store_get? st q
      rw [ih3 q (by omega), ihb3 q hq]

theorem deep_copy_spec (st : WordStore) (o : ROcrData) :
    (∀ r ∈ word_refs (deep_copy st o).2, max_ref st < r)
    ∧ (∀ q, q ≤ max_ref st → store_get? (deep_copy st o).1 q = store_get? st q) := by
  obtain ⟨h1, h2, h3⟩ := copy_pages_spec o.pages st (max_ref st + 1)
  constructor
  · intro r hr
    have hr2 : r ∈ ((copy_pages st (max_ref st + 1) o.pages).2.1).flatMap
        (fun pg => pg.blocks.flatMap (fun bl => bl.lines.flatMap RLine.words)) := hr
    have := h2 r hr2
    omega
  · intro q hq
    show store_get? (copy_pages st (max_ref st + 1) o.pages).1 q = store_get? st q
    exact h3 q (by omega)

theorem ref_correct_words_get (lexicon : Lexicon) (now : Nat) (rs : List Nat)
    (st : WordStore) (q : Nat) (h : ∀ r ∈ rs, r ≠ q) :
    store_get? (ref_correct_words lexicon now st rs).1 q = store_get? st q := by
  induction rs generalizing st with
  | nil => rfl
  | cons r rest ih =>
    have hunfold : (ref_correct_words lexicon now st (r :: rest)).1
        = (ref_correct_words lexicon now
            (store_set st r
              (correct_word lexicon now ((store_get? st r).getD default)).1) rest).1
        := rfl
    rw [hunfold, ih _ (fun r1 hr1 => h r1 (List.mem_cons_of_mem r hr1)),
      store_get?_set_ne _ _ _ _ (Ne.symm (h r (List.mem_cons_self r rest)))]

theorem ref_integrate_words_get (by_word_id : List (String × Correction)) (idx : Nat)
    (rs : List Nat) (st : WordStore) (q : Nat) (h : ∀ r ∈ rs, r ≠ q) :
    store_get? (ref_integrate_words by_word_id idx st rs).1 q = store_get? st q := by
  induction rs generalizing st idx with
  | nil => rfl
  | cons r rest ih =>
    have hunfold : (ref_integrate_words by_word_id idx st (r :: rest)).1
        = (ref_integrate_words by_word_id (idx + 1)
            (store_set st r
              (integrate_word by_word_id idx ((store_get? st r).getD default))) rest).1
        := rfl
    rw [hunfold, ih _ _ (fun r1 hr1 => h r1 (List.mem_cons_of_mem r hr1)),
      store_get?_set_ne _ _ _ _ (Ne.symm (h r (List.mem_cons_self r rest)))]

/-- Claim C10: neither correction pass mutates the caller's input.  Both
heap-level functions first deep-copy the OCR structure (allocating every
word object of the copy at a fresh reference) and then assign only
through the copy's references, so every word object that existed before
the call — in particular every word reachable from the caller's input
structure — still holds its original value afterwards; the early-return
paths (auto-correction disabled, empty lexicon, no corrections loaded)
hand the input structure back with the heap untouched. -/
theorem c10_input_never_mutated (store : WordStore) (o : ROcrData) (q : Nat)
    (auto_correction_enabled : Bool) (lexicon : Lexicon) (now : Nat)
    (corrections : List Correction) (hq : q ≤ max_ref store) :
    store_get?
      (ref_apply_lexicon_corrections auto_correction_enabled lexicon now store o).1 q
      = store_get? store q
    ∧ store_get? (ref_apply_corrections_to_ocr store o corrections).1 q
      = store_get? store q := by
  obtain ⟨hrefs, hpres⟩ := deep_copy_spec store o
  constructor
  · unfold ref_apply_lexicon_corrections
    by_cases ha : auto_correction_enabled
    · rw [if_neg (by simp [ha])]
      by_cases he : lexicon.isEmpty
      · rw [if_pos he]
      · rw [if_neg he]
        show store_get?
          (ref_correct_words lexicon now (deep_copy store o).1
            (word_refs (deep_copy store o).2)).1 q = store_get? store q
        rw [ref_correct_words_get lexicon now _ _ q
          (fun r hr => by have := hrefs r hr; omega), hpres q hq]
    · rw [if_pos (by simp [ha])]
  · unfold ref_apply_corrections_to_ocr
    show store_get?
      (ref_integrate_words (corrections_by_word_id corrections) 0 (deep_copy store o).1
        (word_refs (deep_copy store o).2)).1 q = store_get? store q
    rw [ref_integrate_words_get _ _ _ _ q
      (fun r hr => by have := hrefs r hr; omega), hpres q hq]

/-- Claim C10, witness: a one-word input document whose single word
object (reference 0) is unchanged by both passes, although the lexicon
rewrites its copy. -/
theorem c10_input_never_mutated_witness :
    store_get?
      (ref_apply_lexicon_corrections true [("A", "B")] 0
        [(0, { value := "A" })] (ROcrData.mk [RPage.mk [RBlock.mk [RLine.mk [0]]]])).1 0
      = store_get? [(0, { value := "A" })] 0
    ∧ store_get?
      (ref_apply_corrections_to_ocr [(0, { value := "A" })]
        (ROcrData.mk [RPage.mk [RBlock.mk [RLine.mk [0]]]]) []).1 0
      = store_get? [(0, { value := "A" })] 0 :=
  c10_input_never_mutated [(0, { value := "A" })]
    (ROcrData.mk [RPage.mk [RBlock.mk [RLine.mk [0]]]]) 0 true [("A", "B")] 0 []
    (by decide)

end FinoktAI
